import Mathlib

/-!
BibClean (doi2bib-correction): a shallow embedding of the BibTeX
parsing / normalization / serialization core, together with theorems
checking the design-specification claims against it.

Strings are modelled by their character lists (`List Char`, ASCII
scope); every definition mirrors the corresponding JavaScript function
of the source, with JS regex semantics hand-compiled either to a
deterministic scanner (where backtracking provably cannot change the
outcome) or to an explicit fueled backtracking search in the order the
regex engine explores alternatives.  Top-level wrappers carry the
source function names and operate on `String`.
-/

/-- Characters matched by the JS regex class \s (ASCII scope). -/
def isWs (c : Char) : Bool :=
  c = ' ' || c = '\t' || c = '\n' || c = '\r' || c = '\x0b' || c = '\x0c'

/-- Characters matched by the JS regex class \w. -/
def isWordChar (c : Char) : Bool := c.isAlphanum || c = '_'

/-- Character list of a string literal. -/
def lc (s : String) : List Char := s.data

/-- Strip trailing JS whitespace. -/
def dropTrailWs (l : List Char) : List Char := (l.reverse.dropWhile isWs).reverse

/-- JS String.prototype.trim (ASCII whitespace). -/
def jsTrim (l : List Char) : List Char := dropTrailWs (l.dropWhile isWs)

/-- JS replace(/\s+/g, " "): every whitespace run becomes a single space.
The Boolean flag records whether the previous character was whitespace. -/
def collapseWsAux : Bool → List Char → List Char
  | _, [] => []
  | prevWs, c :: t =>
    if isWs c then
      if prevWs then collapseWsAux true t else ' ' :: collapseWsAux true t
    else c :: collapseWsAux false t

/-- JS replace(/\s+/g, " "). -/
def collapseWs (l : List Char) : List Char := collapseWsAux false l

/-- JS String.prototype.split(sep) for a one-character separator,
including the empty pieces JS produces. -/
def splitOnChar (sep : Char) : List Char → List (List Char)
  | [] => [[]]
  | c :: t =>
    match splitOnChar sep t with
    | r :: rs => if c = sep then [] :: r :: rs else (c :: r) :: rs
    | [] => [[c]]

/-- JS String.prototype.split(/\s+/): maximal whitespace runs separate the
pieces; a leading or trailing run contributes an empty piece, exactly as in
JS. -/
def jsSplitWs : List Char → List (List Char)
  | [] => [[]]
  | [c] => if isWs c then [[], []] else [[c]]
  | c :: d :: t =>
    match jsSplitWs (d :: t) with
    | r :: rs =>
      if isWs c then
        if isWs d then r :: rs else [] :: r :: rs
      else (c :: r) :: rs
    | [] => [[c]]

/-- Join pieces with a single space (JS Array.prototype.join(" ")). -/
def joinSpace (l : List (List Char)) : List Char := List.intercalate [' '] l

/-- Source cleanToken: remove dots and commas, then trim. -/
def cleanToken (t : List Char) : List Char :=
  jsTrim (t.filter (fun c => !(c = '.' || c = ',')))

/-- Replace dots by spaces (JS replace(/\./g, " ")). -/
def dotToSpace (c : Char) : Char := if c = '.' then ' ' else c

/-- First character of a token, upper-cased (JS p[0].toUpperCase(), ASCII). -/
def firstUpper : List Char → List Char
  | [] => []
  | c :: _ => [c.toUpper]

/-- Source makeInitialsFromGiven: dots to spaces, split on whitespace,
clean each token, drop empties, keep each first character upper-cased,
join with single spaces. -/
def makeInitialsL (given : List Char) : List Char :=
  let parts := ((jsSplitWs (given.map dotToSpace)).map cleanToken).filter (· ≠ [])
  joinSpace (parts.map firstUpper)

/-- Source normalizeOneAuthorStrict.  The JS template literal coerces the
undefined family slot (when every token cleans to nothing) to the string
"undefined"; that coercion is modelled explicitly in the last branch. -/
def normalizeOneAuthorL (noDots : Bool) (rawName : List Char) : List Char :=
  let n0 := jsTrim rawName
  if n0 = [] then [] else
  let n := collapseWs n0
  if n.head? = some '{' ∧ n.getLast? = some '}' then n else
  if n.contains ',' then
    let pieces := ((splitOnChar ',' n).map jsTrim).filter (· ≠ [])
    let family := cleanToken (pieces.headD [])
    let given := joinSpace (pieces.drop 1)
    let inits := makeInitialsL given
    let out := collapseWs (jsTrim (inits ++ ' ' :: family))
    if noDots then out.filter (· ≠ '.') else out
  else
    let tokens := ((jsSplitWs (n.map dotToSpace)).map cleanToken).filter (· ≠ [])
    if tokens.length = 1 then tokens.headD [] else
    let family := (tokens.getLast?).getD (lc "undefined")
    let givenTokens := tokens.dropLast
    let inits := joinSpace ((givenTokens.map firstUpper).filter (· ≠ []))
    let out := collapseWs (jsTrim (inits ++ ' ' :: family))
    if noDots then out.filter (· ≠ '.') else out

/-- Does the separator regex \s+and\s+ (case-insensitive) match at the head
of the list?  If so, return the rest after the greedy match.  Backtracking
cannot alter this: shortening either \s+ leaves a whitespace character where
a letter is required (or conversely). -/
def andSepAt (cs : List Char) : Option (List Char) :=
  if (cs.takeWhile isWs) = [] then none else
  match cs.dropWhile isWs with
  | a :: n :: d :: rest =>
    if a.toLower = 'a' ∧ n.toLower = 'n' ∧ d.toLower = 'd' then
      if (rest.takeWhile isWs) = [] then none else some (rest.dropWhile isWs)
    else none
  | _ => none

/-- Fueled scan implementing JS split(/\s+and\s+/i): leftmost separator
matches, pieces accumulated in order.  The accumulator holds the current
piece reversed; fuel equal to the length of the list suffices since each
step consumes at least one character. -/
def splitAndF : Nat → List Char → List Char → List (List Char)
  | 0, acc, cs => [acc.reverse ++ cs]
  | _ + 1, acc, [] => [acc.reverse]
  | fuel + 1, acc, c :: t =>
    match andSepAt (c :: t) with
    | some rest => acc.reverse :: splitAndF fuel [] rest
    | none => splitAndF fuel (c :: acc) t

/-- JS split(/\s+and\s+/i) on a character list. -/
def splitAnd (l : List Char) : List (List Char) := splitAndF (l.length + 1) [] l

/-- Source normalizeAuthorsStrict on a character list. -/
def normalizeAuthorsL (noDots : Bool) (authorField : List Char) : List Char :=
  let authors := ((splitAnd authorField).map jsTrim).filter (· ≠ [])
  List.intercalate (lc " and ") (authors.map (normalizeOneAuthorL noDots))

/-- Source normalizeAuthorsStrict (the noDots checkbox is the Boolean). -/
def normalizeAuthorsStrict (noDots : Bool) (authorField : String) : String :=
  String.mk (normalizeAuthorsL noDots authorField.data)

/-- Source normalizeOneAuthorStrict. -/
def normalizeOneAuthorStrict (noDots : Bool) (rawName : String) : String :=
  String.mk (normalizeOneAuthorL noDots rawName.data)

/-- Is the first list an initial segment of the second? -/
def leadsWith : List Char → List Char → Bool
  | [], _ => true
  | _ :: _, [] => false
  | a :: as, b :: bs => a = b && leadsWith as bs

/-- Substring test (JS String.prototype.includes) for a fixed needle. -/
def hasSub (nd : List Char) : List Char → Bool
  | [] => nd.isEmpty
  | c :: t => leadsWith nd (c :: t) || hasSub nd t

/-- Greedy \d* alternatives after a prefix: longest digit take first. -/
def digitOptions (pre rest : List Char) : List (List Char × List Char) :=
  ((List.range ((rest.takeWhile Char.isDigit).length + 1)).reverse).map
    (fun k => (pre ++ (rest.takeWhile Char.isDigit).take k,
      (rest.takeWhile Char.isDigit).drop k ++ rest.dropWhile Char.isDigit))

/-- One element block of the title-formula regex: [A-Z][a-z]?\d*, with all
the alternatives the engine would try at this position, most greedy first.
Each alternative is (consumed, rest); every alternative consumes at least
one character. -/
def gParses : List Char → List (List Char × List Char)
  | [] => []
  | c :: t =>
    if c.isUpper then
      (match t with
       | d :: t2 => if d.isLower then digitOptions [c, d] t2 else []
       | [] => []) ++ digitOptions [c] t
    else []

/-- Is there a word boundary (\b) between the consumed token and this rest? -/
def endBoundary : List Char → Bool
  | [] => true
  | c :: _ => !isWordChar c

/-- Try each element-block alternative in engine order, continuing each with
the supplied deeper matcher. -/
def tryExtsWith (f : List Char → Nat → Option (List Char × List Char)) :
    List (List Char × List Char) → Nat → Option (List Char × List Char)
  | [], _ => none
  | (g, rest) :: more, k =>
    match f rest (k + 1) with
    | some (c2, r2) => some (g ++ c2, r2)
    | none => tryExtsWith f more k

/-- Fueled backtracking for ([A-Z][a-z]?\d*){2,}\b at the current position:
try to extend with one more element block first (greedy repetition), and
only once no extension leads to success close the repetition, which
requires at least two blocks and a word boundary. -/
def matchRepF : Nat → List Char → Nat → Option (List Char × List Char)
  | 0, _, _ => none
  | fuel + 1, cs, k =>
    match tryExtsWith (matchRepF fuel) (gParses cs) k with
    | some r => some r
    | none => if 2 ≤ k ∧ endBoundary cs = true then some ([], cs) else none

/-- Inner rewrite ([A-Z][a-z]?)(\d+) at the current position: element symbol
then a nonempty greedy digit run.  With a lowercase second letter but no
digit after it, dropping the lowercase letter cannot help (the lowercase
letter is not a digit), so the engine fails here. -/
def innerMatchAt : List Char → Option (List Char × List Char × List Char)
  | [] => none
  | c :: t =>
    if c.isUpper then
      match t with
      | d :: t2 =>
        if d.isLower then
          let ds := t2.takeWhile Char.isDigit
          if ds = [] then none else some ([c, d], ds, t2.dropWhile Char.isDigit)
        else
          let ds := t.takeWhile Char.isDigit
          if ds = [] then none else some ([c], ds, t.dropWhile Char.isDigit)
      | [] => none
    else none

/-- Fueled global replace of ([A-Z][a-z]?)(\d+) by element$_digits$ inside
one matched formula token. -/
def innerSubF : Nat → List Char → List Char
  | 0, cs => cs
  | _ + 1, [] => []
  | fuel + 1, c :: t =>
    match innerMatchAt (c :: t) with
    | some (el, num, rest) => el ++ lc "$_" ++ num ++ '$' :: innerSubF fuel rest
    | none => c :: innerSubF fuel t

/-- The replacement callback of the source: a token without a digit is kept
as is (though still consumed by the scan); otherwise every element+digits
group is subscripted and the whole token wrapped in braces. -/
def materialToken (tok : List Char) : List Char :=
  if tok.any Char.isDigit then '{' :: innerSubF (tok.length + 1) tok ++ ['}'] else tok

/-- Fueled scan of replace(/\b([A-Z][a-z]?\d*){2,}\b/g, ...): the Boolean
says whether a word boundary precedes the current position (start of string
or previous character not a word character).  After a match the scan resumes
right after the consumed token, whose last character is always a word
character, so no boundary holds there. -/
def lmScanF : Nat → Bool → List Char → List Char
  | 0, _, cs => cs
  | _ + 1, _, [] => []
  | fuel + 1, bnd, c :: t =>
    match (if bnd then matchRepF (c :: t).length (c :: t) 0 else none) with
    | some (tok, rest) => materialToken tok ++ lmScanF fuel false rest
    | none => c :: lmScanF fuel (!isWordChar c) t

/-- Source latexifyMaterialsInTitle on a character list. -/
def latexifyL (title : List Char) : List Char :=
  if title = [] then title
  else if hasSub (lc "$_") title || hasSub (lc "\\mathrm") title then title
  else lmScanF (title.length + 1) true title

/-- Source latexifyMaterialsInTitle. -/
def latexifyMaterialsInTitle (title : String) : String :=
  String.mk (latexifyL title.data)

/-- Characters of the DOI suffix class [-._;()/:A-Z0-9] under the /i flag
(ASCII letters of either case). -/
def isDoiSuffixChar (c : Char) : Bool :=
  c.isAlpha || c.isDigit || c = '-' || c = '.' || c = '_' || c = ';' ||
  c = '(' || c = ')' || c = '/' || c = ':'

/-- Match of 10\.\d{4,9}\/[-._;()/:A-Z0-9]+ anchored at this position.
Greedy \d{4,9} with the mandatory slash after it is deterministic: giving
back a digit leaves a digit where the slash is required, so the match
succeeds exactly when the whole digit run has length 4..9 and a slash
follows. -/
def doiMatchAt (cs : List Char) : Option (List Char × List Char) :=
  match cs with
  | c1 :: c2 :: c3 :: rest =>
    if c1 = '1' ∧ c2 = '0' ∧ c3 = '.' then
      if 4 ≤ (rest.takeWhile Char.isDigit).length ∧
          (rest.takeWhile Char.isDigit).length ≤ 9 then
        match rest.dropWhile Char.isDigit with
        | c4 :: rest2 =>
          if c4 = '/' then
            if rest2.takeWhile isDoiSuffixChar = [] then none
            else some ('1' :: '0' :: '.' :: rest.takeWhile Char.isDigit ++
              '/' :: rest2.takeWhile isDoiSuffixChar, rest2.dropWhile isDoiSuffixChar)
          else none
        | [] => none
      else none
    else none
  | _ => none

/-- Leftmost-match scan for the DOI regex. -/
def doiScan : List Char → Option (List Char)
  | [] => none
  | c :: t =>
    match doiMatchAt (c :: t) with
    | some (m, _) => some m
    | none => doiScan t

/-- Source extractDoiFromText on a character list: empty text short-circuits
(JS falsiness), otherwise trim and return the first regex match or "". -/
def extractDoiL (text : List Char) : List Char :=
  if text = [] then [] else
  match doiScan (jsTrim text) with
  | some m => m
  | none => []

/-- Source extractDoiFromText. -/
def extractDoiFromText (text : String) : String := String.mk (extractDoiL text.data)

/-- Source doiUrl: fixed resolver base address prefixed to the DOI. -/
def doiUrlL (doi : List Char) : List Char := lc "https://doi.org/" ++ doi

/-- Source doiUrl. -/
def doiUrl (doi : String) : String := String.mk (doiUrlL doi.data)

/-- Field mapping of an entry: association list in insertion order;
assignment to a present key updates it in place (JS object semantics). -/
def setField : List (List Char × List Char) → List Char → List Char →
    List (List Char × List Char)
  | [], n, v => [(n, v)]
  | (k, w) :: rest, n, v =>
    if k = n then (k, v) :: rest else (k, w) :: setField rest n v

/-- Field lookup (JS property read; none models undefined). -/
def getField (fs : List (List Char × List Char)) (n : List Char) : Option (List Char) :=
  match fs with
  | [] => none
  | (k, w) :: rest => if k = n then some w else getField rest n

/-- JS truthiness of a field read: present with a nonempty value. -/
def truthyAt (fs : List (List Char × List Char)) (n : List Char) : Bool :=
  match getField fs n with
  | some v => !v.isEmpty
  | none => false

/-- Field read defaulting to the empty string. -/
def getFd (fs : List (List Char × List Char)) (n : List Char) : List Char :=
  (getField fs n).getD []

/-- Header regex ^@(\w+)\s*\{\s*([^,]+)\s*, of parseEntry, compiled to a
deterministic scanner: returns the type keyword, the raw key text (between
the opening brace and the first comma; nonempty), and the rest after the
comma.  Backtracking cannot change this: \w+ must stop at the first
non-word character, and [^,]+ together with the surrounding \s* covers
exactly the characters before the first comma. -/
def parseHead (cs : List Char) : Option (List Char × List Char × List Char) :=
  match cs with
  | a :: cs1 =>
    if a = '@' then
      if cs1.takeWhile isWordChar = [] then none else
      match (cs1.dropWhile isWordChar).dropWhile isWs with
      | b :: cs4 =>
        if b = '{' then
          -- the head of the dropWhile below, when nonempty, is the first comma
          match cs4.dropWhile (· ≠ ',') with
          | _ :: cs5 =>
            if cs4.takeWhile (· ≠ ',') = [] then none
            else some (cs1.takeWhile isWordChar, cs4.takeWhile (· ≠ ','), cs5)
          | [] => none
        else none
      | [] => none
    else none
  | [] => none

/-- JS replace(/\}\s*$/, ""): remove the final closing brace when only
whitespace follows it. -/
def stripTrailBrace (cs : List Char) : List Char :=
  match cs.reverse.dropWhile isWs with
  | c :: t => if c = '}' then t.reverse else cs
  | [] => cs

/-- Body of the first value alternative \{(?:[^{}]|\{[^{}]*\})*\}, after the
opening brace: consume plain characters and one-level nested groups until
the first top-level closing brace; a second-level opening brace makes the
whole alternative fail (no backtracking branch can consume it).  Returns
the consumed content (without the outer braces) and the rest after the
closing brace. -/
def braceInnerF : Nat → List Char → Option (List Char × List Char)
  | 0, _ => none
  | _ + 1, [] => none
  | fuel + 1, c :: t =>
    if c = '}' then some ([], t)
    else if c = '{' then
      let inner := t.takeWhile (fun d => !(d = '{' || d = '}'))
      match t.dropWhile (fun d => !(d = '{' || d = '}')) with
      | d :: t2 =>
        if d = '}' then
          match braceInnerF fuel t2 with
          | some (cons, rest) => some ('{' :: inner ++ '}' :: cons, rest)
          | none => none
        else none
      | [] => none
    else
      match braceInnerF fuel t with
      | some (cons, rest) => some (c :: cons, rest)
      | none => none

/-- Bare value alternative [^,]+: everything up to the next comma. -/
def bareValue (cs : List Char) : Option (List Char × List Char) :=
  let v := cs.takeWhile (· ≠ ',')
  if v = [] then none else some (v, cs.dropWhile (· ≠ ','))

/-- The ordered value alternation of the field regex:
\{(?:[^{}]|\{[^{}]*\})*\} first, then "[^"]*", then [^,]+.  Returns the raw
matched text (delimiters included) and the rest. -/
def matchValue (cs : List Char) : Option (List Char × List Char) :=
  match cs with
  | c :: t =>
    if c = '{' then
      match braceInnerF (t.length + 1) t with
      | some (cons, rest) => some ('{' :: cons ++ ['}'], rest)
      | none => bareValue cs
    else if c = '"' then
      -- the head of the dropWhile below, when nonempty, is the closing quote
      match t.dropWhile (· ≠ '"') with
      | _ :: rest => some ('"' :: t.takeWhile (· ≠ '"') ++ ['"'], rest)
      | [] => bareValue cs
    else bareValue cs
  | [] => bareValue cs

/-- Consume the optional comma of \s*,? (whitespace already dropped). -/
def dropComma (cs : List Char) : List Char :=
  match cs with
  | c :: t => if c = ',' then t else c :: t
  | [] => []

/-- One attempt of the field regex (\w+)\s*=\s*(VALUE)\s*,? anchored at the
current position: field word, equals sign with optional whitespace, a value
alternative, then optional whitespace and an optional comma, all consumed. -/
def matchFieldAt (cs : List Char) : Option (List Char × List Char × List Char) :=
  if cs.takeWhile isWordChar = [] then none else
  match (cs.dropWhile isWordChar).dropWhile isWs with
  | b :: cs3 =>
    if b = '=' then
      match matchValue (cs3.dropWhile isWs) with
      | some (raw, cs5) =>
        some (cs.takeWhile isWordChar, raw, dropComma (cs5.dropWhile isWs))
      | none => none
    else none
  | [] => none

/-- First conditional of the value post-processing: strip one layer of
wrapping braces, then trim. -/
def stripBraces (v : List Char) : List Char :=
  if v.head? = some '{' ∧ v.getLast? = some '}'
  then jsTrim (v.dropLast.drop 1) else v

/-- Second conditional of the value post-processing: strip one layer of
wrapping quotes, then trim. -/
def stripQuotes (v : List Char) : List Char :=
  if v.head? = some '"' ∧ v.getLast? = some '"'
  then jsTrim (v.dropLast.drop 1) else v

/-- Post-processing of a raw matched value: trim, strip one layer of
wrapping braces (then trim), then one layer of wrapping quotes (then trim),
exactly as the two sequential conditionals of the source. -/
def stripValue (raw : List Char) : List Char :=
  stripQuotes (stripBraces (jsTrim raw))

/-- The repeated exec of the global field regex: leftmost match from the
current position; on a match the scan resumes after it (the match consumes
at least the field word), otherwise it advances one character.  Later
occurrences of a field name overwrite earlier ones (JS object assignment,
name lower-cased). -/
def parseFieldsLoopF : Nat → List Char → List (List Char × List Char) →
    List (List Char × List Char)
  | 0, _, acc => acc
  | _ + 1, [], acc => acc
  | fuel + 1, c :: t, acc =>
    match matchFieldAt (c :: t) with
    | some (w, raw, rest) =>
      parseFieldsLoopF fuel rest (setField acc (w.map Char.toLower) (stripValue raw))
    | none => parseFieldsLoopF fuel t acc

/-- Parsed entry: lowercased type keyword, trimmed citation key, field
mapping. -/
structure Entry where
  type : List Char
  key : List Char
  fields : List (List Char × List Char)
deriving DecidableEq

/-- Source parseEntry. -/
def parseEntry (entryText : String) : Option Entry :=
  match parseHead entryText.data with
  | none => none
  | some (w, pre, rest) =>
    let body := jsTrim (stripTrailBrace rest)
    some ⟨w.map Char.toLower, jsTrim pre, parseFieldsLoopF (body.length + 1) body []⟩

/-- The fixed preferred field order of the serializer. -/
def preferred : List (List Char) :=
  [lc "author", lc "title", lc "journal", lc "booktitle", lc "year",
   lc "volume", lc "number", lc "pages", lc "doi", lc "url"]

/-- JS default sort comparator on strings: code-unit lexicographic order. -/
def lcLe : List Char → List Char → Bool
  | [], _ => true
  | _ :: _, [] => false
  | a :: as, b :: bs => if a = b then lcLe as bs else decide (a < b)

/-- Insert into a lexicographically sorted list of keys. -/
def insertKey (x : List Char) : List (List Char) → List (List Char)
  | [] => [x]
  | y :: ys => if lcLe x y then x :: y :: ys else y :: insertKey x ys

/-- Sort field names as JS Array.prototype.sort() does (insertion sort
realizing the unique sorted arrangement of the distinct keys). -/
def sortKeys : List (List Char) → List (List Char)
  | [] => []
  | x :: xs => insertKey x (sortKeys xs)

/-- One serialized field line. -/
def renderLineL (n v : List Char) : List Char :=
  ' ' :: ' ' :: n ++ lc " = " ++ '{' :: v ++ ['}']

/-- The non-preferred field names, sorted (Object.keys order is insertion
order; filter keeps it; sort orders it). -/
def extraKeys (fs : List (List Char × List Char)) : List (List Char) :=
  sortKeys ((fs.map Prod.fst).filter (fun f => !(preferred.contains f)))

/-- The (name, value) pairs in emission order: preferred fields that are
truthy, in the fixed preferred order, then all remaining fields sorted by
name.  This is exactly the pair of loops of the serializer. -/
def emissionPairsL (fs : List (List Char × List Char)) : List (List Char × List Char) :=
  (preferred.filter (fun f => truthyAt fs f)).map (fun f => (f, getFd fs f)) ++
  (extraKeys fs).map (fun f => (f, getFd fs f))

/-- JS Array.prototype.join(sep) on character lists. -/
def joinSepL (sep : List Char) : List (List Char) → List Char
  | [] => []
  | [x] => x
  | x :: y :: t => x ++ sep ++ joinSepL sep (y :: t)

/-- Serialized text of an entry from already-chosen pairs: header line,
lines joined by comma-newline, closing brace line. -/
def serializeCore (ty key : List Char) (pairs : List (List Char × List Char)) : List Char :=
  '@' :: ty ++ '{' :: key ++ lc ",\n" ++
  joinSepL (lc ",\n") (pairs.map (fun p => renderLineL p.1 p.2)) ++
  lc "\n" ++ '}' :: lc "\n"

/-- A nonempty list of word characters each stable under lower-casing: the
shape parseEntry itself guarantees for entry types and field names. -/
def wordLower (l : List Char) : Prop :=
  l ≠ [] ∧ ∀ c ∈ l, isWordChar c = true ∧ c.toLower = c

instance (l : List Char) : Decidable (wordLower l) := by
  unfold wordLower; infer_instance

/-- A citation key that survives the round trip: nonempty, trimmed,
comma-free. -/
def niceKey (k : List Char) : Prop :=
  k ≠ [] ∧ jsTrim k = k ∧ ∀ c ∈ k, c ≠ ','

instance (k : List Char) : Decidable (niceKey k) := by
  unfold niceKey; infer_instance

/-- A field value that survives the round trip: free of brace characters,
trimmed, and not wrapped in double quotes. -/
def niceValue (v : List Char) : Prop :=
  (∀ c ∈ v, c ≠ '{' ∧ c ≠ '}') ∧ jsTrim v = v ∧
  ¬(v.head? = some '"' ∧ v.getLast? = some '"')

instance (v : List Char) : Decidable (niceValue v) := by
  unfold niceValue; infer_instance

/-- The serialized field region, starting at the first field name (the
two-space indentation of the first line removed): the form on which the
field-loop reparse lemma recurses. -/
def chunksFrom : List (List Char × List Char) → List Char
  | [] => []
  | [(n, v)] => n ++ ' ' :: '=' :: ' ' :: '{' :: (v ++ ['}'])
  | (n, v) :: p :: rest =>
    n ++ ' ' :: '=' :: ' ' :: '{' ::
      (v ++ '}' :: ',' :: '\n' :: ' ' :: ' ' :: chunksFrom (p :: rest))

/-- The three checkbox options read by the pipeline. -/
structure Opts where
  noDots : Bool
  tryExtractDoi : Bool
  enforceDoiUrl : Bool
deriving DecidableEq

/-- formatEntry step 1: normalize the author field when truthy. -/
def authorStep (o : Opts) (fs : List (List Char × List Char)) :
    List (List Char × List Char) :=
  if truthyAt fs (lc "author") then
    setField fs (lc "author") (normalizeAuthorsL o.noDots (getFd fs (lc "author")))
  else fs

/-- formatEntry step 2: latexify the title field when truthy. -/
def titleStep (fs : List (List Char × List Char)) : List (List Char × List Char) :=
  if truthyAt fs (lc "title") then
    setField fs (lc "title") (latexifyL (getFd fs (lc "title")))
  else fs

/-- formatEntry step 3: extract a DOI from the URL when the option is on,
the DOI is falsy and the URL truthy; an empty extraction changes nothing. -/
def extractStep (o : Opts) (fs : List (List Char × List Char)) :
    List (List Char × List Char) :=
  if o.tryExtractDoi && !truthyAt fs (lc "doi") && truthyAt fs (lc "url") then
    let d := extractDoiL (getFd fs (lc "url"))
    if d = [] then fs else setField fs (lc "doi") d
  else fs

/-- formatEntry step 4: when the option is on and the DOI truthy, trim the
DOI in place and overwrite the URL with the resolver address. -/
def enforceStep (o : Opts) (fs : List (List Char × List Char)) :
    List (List Char × List Char) :=
  if o.enforceDoiUrl && truthyAt fs (lc "doi") then
    let d := jsTrim (getFd fs (lc "doi"))
    setField (setField fs (lc "doi") d) (lc "url") (doiUrlL d)
  else fs

/-- The in-place normalization passes of formatEntry, in source order. -/
def normalizeFieldsL (o : Opts) (fs : List (List Char × List Char)) :
    List (List Char × List Char) :=
  enforceStep o (extractStep o (titleStep (authorStep o fs)))

/-- Source formatEntry on the character-list level. -/
def formatEntryL (o : Opts) (e : Entry) : List Char :=
  serializeCore e.type e.key (emissionPairsL (normalizeFieldsL o e.fields))

/-- Source formatEntry: normalization passes then serialization. -/
def formatEntry (o : Opts) (e : Entry) : String := String.mk (formatEntryL o e)

/-- All options off. -/
def opts0 : Opts := ⟨false, false, false⟩

/-- One author of a remote metadata record (given/family pair, either may be
absent). -/
structure CrossrefAuthor where
  given : Option String
  family : Option String
deriving DecidableEq

/-- The remote metadata record shape read by crossrefToBibEntry: the fields
of the Crossref message the adapter accesses, each optional exactly where
the source defends against absence (?? and truthiness checks). -/
structure CrossrefMsg where
  issuedYear : Option Nat
  title : List String
  containerTitle : List String
  volume : Option String
  issue : Option String
  page : Option String
  doi : Option String
  url : Option String
  author : List CrossrefAuthor
deriving DecidableEq

/-- Source crossrefToBibEntry: fixed type "article", synthesized key
(first family + year + first alphanumeric-stripped title word, whitespace
removed), fields populated from the record with empty-string defaults. -/
def crossrefToBibEntry (msg : CrossrefMsg) : Entry :=
  let yearL : List Char := match msg.issuedYear with
    | some y => lc (toString y)
    | none => []
  let titleL : List Char := (msg.title.headD "").data
  let journalL : List Char := (msg.containerTitle.headD "").data
  let volumeL : List Char := (msg.volume.getD "").data
  let numberL : List Char := (msg.issue.getD "").data
  let pagesL : List Char := (msg.page.getD "").data
  let doiL : List Char := (msg.doi.getD "").data
  let urlL : List Char :=
    if doiL = [] then (msg.url.getD "").data else lc "https://doi.org/" ++ doiL
  let oneName := fun (a : CrossrefAuthor) =>
    let g := match a.given with
      | some s => if s.data = [] then [] else jsTrim s.data
      | none => []
    let f := match a.family with
      | some s => if s.data = [] then [] else jsTrim s.data
      | none => []
    jsTrim (List.intercalate [' '] ([g, f].filter (· ≠ [])))
  let authorsL : List Char :=
    List.intercalate (lc " and ") ((msg.author.map oneName).filter (· ≠ []))
  let firstFamily : List Char := match msg.author.head? with
    | some a =>
      match a.family with
      | some s => if s.data = [] then lc "ref" else s.data
      | none => lc "ref"
    | none => lc "ref"
  let firstWord : List Char :=
    if titleL = [] then lc "paper"
    else ((jsSplitWs titleL).headD []).filter Char.isAlphanum
  let key := (firstFamily ++ yearL ++ firstWord).filter (fun c => !isWs c)
  ⟨lc "article", key,
    [(lc "author", authorsL), (lc "title", titleL), (lc "journal", journalL),
     (lc "year", yearL), (lc "volume", volumeL), (lc "number", numberL),
     (lc "pages", pagesL), (lc "doi", doiL), (lc "url", urlL)]⟩

/-- One iteration of the batch conversion loop of the btnConvertDoi
handler, on the accumulator (combined output, ok count, failed count): a
success appends the formatted entry plus a newline and bumps ok, a failure
appends the commented failure line and bumps failed. -/
def processStep (o : Opts) (lk : String → Except String CrossrefMsg)
    (acc : String × Nat × Nat) (doi : String) : String × Nat × Nat :=
  match lk doi with
  | .ok msg =>
    (acc.1 ++ formatEntry o (crossrefToBibEntry msg) ++ "\n", acc.2.1 + 1, acc.2.2)
  | .error e =>
    (acc.1 ++ "% Failed DOI: " ++ doi ++ " (" ++ e ++ ")\n", acc.2.1, acc.2.2 + 1)

/-- The batch conversion loop of the btnConvertDoi handler: the remote
lookup is the external collaborator, modelled as a function returning the
message or the failure text; the identifiers are processed strictly in
order. -/
def processDois (o : Opts) (lk : String → Except String CrossrefMsg)
    (dois : List String) : String × Nat × Nat :=
  dois.foldl (processStep o lk) ("", 0, 0)

/-- Did the lookup of this identifier succeed? -/
def isOkResult (r : Except String CrossrefMsg) : Bool :=
  match r with
  | .ok _ => true
  | .error _ => false

/-- The output fragment one identifier contributes, as the specification
describes it: a formatted entry (plus newline) on success, a failure
comment line on failure. -/
def doiStepOut (o : Opts) (lk : String → Except String CrossrefMsg)
    (doi : String) : String :=
  match lk doi with
  | .ok msg => formatEntry o (crossrefToBibEntry msg) ++ "\n"
  | .error e => "% Failed DOI: " ++ doi ++ " (" ++ e ++ ")\n"

/-- Concatenation of the per-identifier fragments, in input order. -/
def concatAll : List String → String
  | [] => ""
  | s :: r => s ++ concatAll r

/-! Helper lemmas about scanning primitives. -/

lemma takeWhile_all_stop (p : Char → Bool) (a : List Char) (b : Char) (r : List Char)
    (ha : ∀ c ∈ a, p c = true) (hb : p b = false) :
    (a ++ b :: r).takeWhile p = a := by
  rw [List.takeWhile_append_of_pos ha, List.takeWhile_cons, hb]
  simp

lemma dropWhile_all_stop (p : Char → Bool) (a : List Char) (b : Char) (r : List Char)
    (ha : ∀ c ∈ a, p c = true) (hb : p b = false) :
    (a ++ b :: r).dropWhile p = b :: r := by
  rw [List.dropWhile_append_of_pos ha, List.dropWhile_cons, hb]
  simp

lemma head_dropWhile_false (p : Char → Bool) :
    ∀ (l : List Char) (c : Char), (l.dropWhile p).head? = some c → p c = false := by
  intro l
  induction l with
  | nil => intro c h; simp [List.dropWhile] at h
  | cons x xs ih =>
    intro c h
    rw [List.dropWhile_cons] at h
    by_cases hx : p x = true
    · rw [if_pos hx] at h; exact ih c h
    · rw [if_neg hx] at h
      simp at h
      subst h
      exact Bool.eq_false_iff.mpr hx

lemma dropWhile_eq_self_of_head (p : Char → Bool) (l : List Char)
    (h : ∀ c, l.head? = some c → p c = false) : l.dropWhile p = l := by
  cases l with
  | nil => rfl
  | cons x xs => simp [List.dropWhile_cons, h x rfl]

lemma jsTrim_eq_self {l : List Char}
    (h1 : ∀ c, l.head? = some c → isWs c = false)
    (h2 : ∀ c, l.getLast? = some c → isWs c = false) : jsTrim l = l := by
  unfold jsTrim dropTrailWs
  rw [dropWhile_eq_self_of_head isWs l h1]
  rw [dropWhile_eq_self_of_head isWs l.reverse (fun c hc => h2 c (by rwa [List.head?_reverse] at hc))]
  exact List.reverse_reverse l

lemma dropTrailWs_initial_seg (x : List Char) : dropTrailWs x <+: x := by
  unfold dropTrailWs
  have h : ((x.reverse.dropWhile isWs).reverse).reverse <:+ x.reverse := by
    rw [List.reverse_reverse]
    exact List.dropWhile_suffix isWs
  have := List.reverse_suffix.mp h
  simpa using this

lemma head_of_initial_seg {a b : List Char} (h : a <+: b) (hne : a ≠ []) : a.head? = b.head? := by
  obtain ⟨t, rfl⟩ := h
  cases a with
  | nil => exact absurd rfl hne
  | cons x xs => simp

lemma jsTrim_head_not_ws (l : List Char) :
    ∀ c, (jsTrim l).head? = some c → isWs c = false := by
  intro c hc
  unfold jsTrim at hc
  have hpre := dropTrailWs_initial_seg (l.dropWhile isWs)
  have hne : dropTrailWs (l.dropWhile isWs) ≠ [] := by
    intro h
    rw [h] at hc
    simp at hc
  rw [head_of_initial_seg hpre hne] at hc
  exact head_dropWhile_false isWs l c hc

lemma jsTrim_getLast_not_ws (l : List Char) :
    ∀ c, (jsTrim l).getLast? = some c → isWs c = false := by
  intro c hc
  unfold jsTrim dropTrailWs at hc
  rw [List.getLast?_reverse] at hc
  exact head_dropWhile_false isWs (l.dropWhile isWs).reverse c hc

lemma jsTrim_idem (l : List Char) : jsTrim (jsTrim l) = jsTrim l :=
  jsTrim_eq_self (jsTrim_head_not_ws l) (jsTrim_getLast_not_ws l)

lemma jsTrim_sub (l : List Char) : jsTrim l ⊆ l := by
  intro c hc
  unfold jsTrim dropTrailWs at hc
  rw [List.mem_reverse] at hc
  have h1 := (List.dropWhile_suffix isWs (l := (l.dropWhile isWs).reverse)).subset hc
  rw [List.mem_reverse] at h1
  exact (List.dropWhile_suffix isWs (l := l)).subset h1

lemma map_toLower_self {l : List Char} (h : ∀ c ∈ l, c.toLower = c) :
    l.map Char.toLower = l := by
  induction l with
  | nil => rfl
  | cons x xs ih =>
    simp only [List.map_cons, h x (by simp)]
    rw [ih (fun c hc => h c (by simp [hc]))]

/-! Helper lemmas about the field mapping. -/

lemma getField_setField_self (fs : List (List Char × List Char)) (n v : List Char) :
    getField (setField fs n v) n = some v := by
  induction fs with
  | nil => simp [setField, getField]
  | cons p rest ih =>
    by_cases h : p.1 = n
    · simp [setField, getField, h]
    · simp [setField, getField, h, ih]

lemma getField_setField_ne (fs : List (List Char × List Char)) (n m v : List Char)
    (h : n ≠ m) : getField (setField fs n v) m = getField fs m := by
  induction fs with
  | nil => simp [setField, getField, h]
  | cons p rest ih =>
    by_cases hp : p.1 = n
    · simp [setField, getField, hp, h, ih]
    · by_cases hm : p.1 = m
      · simp [setField, getField, hp, hm, Ne.symm h]
      · simp [setField, getField, hp, hm, ih]

lemma setField_append (fs : List (List Char × List Char)) (n v : List Char)
    (h : n ∉ fs.map Prod.fst) : setField fs n v = fs ++ [(n, v)] := by
  induction fs with
  | nil => rfl
  | cons p rest ih =>
    simp only [List.map_cons, List.mem_cons] at h
    push_neg at h
    simp [setField, Ne.symm h.1, ih h.2]

lemma foldl_setField (pairs : List (List Char × List Char)) :
    ∀ acc : List (List Char × List Char),
    (pairs.map Prod.fst).Nodup →
    (∀ n ∈ pairs.map Prod.fst, n ∉ acc.map Prod.fst) →
    pairs.foldl (fun a p => setField a p.1 p.2) acc = acc ++ pairs := by
  induction pairs with
  | nil => intro acc _ _; simp
  | cons p rest ih =>
    intro acc hnodup hdisj
    simp only [List.foldl_cons]
    have h0 : (p.1 :: rest.map Prod.fst).Nodup := by simpa using hnodup
    have h1 : p.1 ∉ rest.map Prod.fst := (List.nodup_cons.mp h0).1
    have h2 : (rest.map Prod.fst).Nodup := (List.nodup_cons.mp h0).2
    rw [setField_append acc p.1 p.2 (hdisj p.1 (by simp))]
    rw [ih (acc ++ [(p.1, p.2)]) h2
        (by
          intro n hn
          simp only [List.map_append, List.mem_append, List.map_cons, List.map_nil]
          push_neg
          constructor
          · exact hdisj n (by simp [hn])
          · simp only [List.mem_singleton]
            intro hcon
            rw [hcon] at hn
            exact h1 hn)]
    simp

/-! Helper lemmas about the key sort. -/

lemma lcLe_total : ∀ a b : List Char, lcLe a b = true ∨ lcLe b a = true := by
  intro a
  induction a with
  | nil => intro b; left; rfl
  | cons x xs ih =>
    intro b
    cases b with
    | nil => right; rfl
    | cons y ys =>
      by_cases hxy : x = y
      · subst hxy
        rcases ih ys with h | h
        · left; simp [lcLe, h]
        · right; simp [lcLe, h]
      · rcases lt_or_gt_of_ne hxy with h | h
        · left; simp [lcLe, hxy, h]
        · right; simp [lcLe, Ne.symm hxy, h]

lemma lcLe_trans : ∀ a b c : List Char,
    lcLe a b = true → lcLe b c = true → lcLe a c = true := by
  intro a
  induction a with
  | nil => intro b c _ _; rfl
  | cons x xs ih =>
    intro b c hab hbc
    cases b with
    | nil => simp [lcLe] at hab
    | cons y ys =>
      cases c with
      | nil => simp [lcLe] at hbc
      | cons z zs =>
        simp only [lcLe] at hab hbc ⊢
        by_cases hxy : x = y
        · subst hxy
          rw [if_pos rfl] at hab
          by_cases hyz : x = z
          · subst hyz
            rw [if_pos rfl] at hbc
            rw [if_pos rfl]
            exact ih ys zs hab hbc
          · rw [if_neg hyz] at hbc
            rw [if_neg hyz]
            exact hbc
        · rw [if_neg hxy] at hab
          have hxylt : x < y := by simpa using hab
          by_cases hyz : y = z
          · subst hyz
            rw [if_neg hxy]
            simpa using hxylt
          · rw [if_neg hyz] at hbc
            have hyzlt : y < z := by simpa using hbc
            have hxz : x < z := lt_trans hxylt hyzlt
            rw [if_neg (ne_of_lt hxz)]
            simpa using hxz

lemma insertKey_perm (x : List Char) (l : List (List Char)) :
    (insertKey x l).Perm (x :: l) := by
  induction l with
  | nil => simp [insertKey]
  | cons y ys ih =>
    by_cases h : lcLe x y = true
    · simp [insertKey, h]
    · simp only [insertKey, h]
      have h1 : (y :: insertKey x ys).Perm (y :: x :: ys) := List.Perm.cons y ih
      have h2 : (y :: x :: ys).Perm (x :: y :: ys) := List.Perm.swap x y ys
      exact h1.trans h2

lemma sortKeys_perm (l : List (List Char)) : (sortKeys l).Perm l := by
  induction l with
  | nil => simp [sortKeys]
  | cons x xs ih =>
    exact ((insertKey_perm x (sortKeys xs)).trans (List.Perm.cons x ih))

lemma mem_insertKey {z x : List Char} {l : List (List Char)} :
    z ∈ insertKey x l ↔ z = x ∨ z ∈ l := by
  rw [(insertKey_perm x l).mem_iff]
  simp

lemma insertKey_pairwise (x : List Char) (l : List (List Char))
    (h : l.Pairwise (fun a b => lcLe a b = true)) :
    (insertKey x l).Pairwise (fun a b => lcLe a b = true) := by
  induction l with
  | nil => simp [insertKey]
  | cons y ys ih =>
    rw [List.pairwise_cons] at h
    by_cases hxy : lcLe x y = true
    · simp only [insertKey, hxy, if_pos]
      rw [List.pairwise_cons]
      refine ⟨?_, by rw [List.pairwise_cons]; exact h⟩
      intro z hz
      rcases List.mem_cons.mp hz with rfl | hz2
      · exact hxy
      · exact lcLe_trans x y z hxy (h.1 z hz2)
    · simp only [insertKey, hxy, if_neg, Bool.false_eq_true, not_false_iff]
      rw [List.pairwise_cons]
      refine ⟨?_, ih h.2⟩
      intro z hz
      rcases mem_insertKey.mp hz with rfl | hz2
      · rcases lcLe_total z y with hyx | hyx
        · exact absurd hyx hxy
        · exact hyx
      · exact h.1 z hz2

lemma sortKeys_pairwise (l : List (List Char)) :
    (sortKeys l).Pairwise (fun a b => lcLe a b = true) := by
  induction l with
  | nil => simp [sortKeys]
  | cons x xs ih => exact insertKey_pairwise x (sortKeys xs) ih

/-! Helper lemmas for the serialize-then-reparse round trip. -/

lemma braceInnerF_flat (v : List Char) (hv : ∀ c ∈ v, c ≠ '{' ∧ c ≠ '}') :
    ∀ (fuel : Nat) (r : List Char), v.length < fuel →
    braceInnerF fuel (v ++ '}' :: r) = some (v, r) := by
  induction v with
  | nil =>
    intro fuel r hf
    cases fuel with
    | zero => omega
    | succ f => simp [braceInnerF]
  | cons c t ih =>
    intro fuel r hf
    cases fuel with
    | zero => omega
    | succ f =>
      have hc := hv c (by simp)
      simp only [List.cons_append, List.append_eq, braceInnerF]
      rw [if_neg hc.2, if_neg hc.1]
      rw [ih (fun d hd => hv d (by simp [hd])) f r (by simpa using Nat.lt_of_succ_lt_succ hf)]

lemma matchValue_braced (v r : List Char) (hv : ∀ c ∈ v, c ≠ '{' ∧ c ≠ '}') :
    matchValue ('{' :: (v ++ '}' :: r)) = some ('{' :: (v ++ ['}']), r) := by
  unfold matchValue
  dsimp only
  rw [if_pos rfl]
  rw [braceInnerF_flat v hv ((v ++ '}' :: r).length + 1) r
    (by simp only [List.length_append, List.length_cons]; omega)]
  simp [List.cons_append]

lemma stripValue_braced (v : List Char) (hnice : niceValue v) :
    stripValue ('{' :: (v ++ ['}'])) = v := by
  show stripValue ('{' :: v ++ ['}']) = v
  have hlast : ('{' :: v ++ ['}']).getLast? = some '}' := by
    rw [List.getLast?_concat]
  have htrim : jsTrim ('{' :: v ++ ['}']) = '{' :: v ++ ['}'] := by
    refine jsTrim_eq_self ?_ ?_
    · intro c hc
      simp only [List.cons_append, List.head?_cons, Option.some_inj] at hc
      subst hc
      decide
    · intro c hc
      rw [hlast] at hc
      simp only [Option.some_inj] at hc
      subst hc
      decide
  unfold stripValue
  rw [htrim]
  unfold stripBraces
  have hhead : ('{' :: v ++ ['}']).head? = some '{' := by simp
  rw [if_pos ⟨hhead, hlast⟩]
  have hdl : ('{' :: v ++ ['}']).dropLast = '{' :: v := by
    rw [List.dropLast_concat]
  rw [hdl]
  simp only [List.drop_succ_cons, List.drop_zero]
  rw [hnice.2.1]
  unfold stripQuotes
  rw [if_neg hnice.2.2]

lemma loopF_nil (fuel : Nat) (acc : List (List Char × List Char)) :
    parseFieldsLoopF fuel [] acc = acc := by
  cases fuel <;> rfl

lemma matchFieldAt_nonword (c : Char) (t : List Char) (hc : isWordChar c = false) :
    matchFieldAt (c :: t) = none := by
  unfold matchFieldAt
  rw [if_pos (by simp [List.takeWhile_cons, hc])]

lemma loopF_step (fuel : Nat) (c : Char) (t : List Char)
    (acc : List (List Char × List Char)) (w raw rest : List Char)
    (hm : matchFieldAt (c :: t) = some (w, raw, rest)) :
    parseFieldsLoopF (fuel + 1) (c :: t) acc =
      parseFieldsLoopF fuel rest (setField acc (w.map Char.toLower) (stripValue raw)) := by
  simp only [parseFieldsLoopF]
  rw [hm]

lemma loopF_skip (j : List Char) (hj : ∀ c ∈ j, isWordChar c = false) :
    ∀ (fuel : Nat) (rest : List Char) (acc : List (List Char × List Char)),
    j.length < fuel →
    parseFieldsLoopF fuel (j ++ rest) acc =
      parseFieldsLoopF (fuel - j.length) rest acc := by
  induction j with
  | nil => intro fuel rest acc h; simp
  | cons c t ih =>
    intro fuel rest acc h
    cases fuel with
    | zero => omega
    | succ f =>
      simp only [List.cons_append, List.append_eq, parseFieldsLoopF]
      rw [matchFieldAt_nonword c (t ++ rest) (hj c (by simp))]
      rw [ih (fun d hd => hj d (by simp [hd])) f rest acc (by simpa using Nat.lt_of_succ_lt_succ h)]
      have harith : f + 1 - (c :: t).length = f - t.length := by
        simp only [List.length_cons]
        omega
      rw [harith]

lemma lc_space_eq : lc " = " = [' ', '=', ' '] := rfl

lemma lc_comma_nl : lc ",\n" = [',', '\n'] := rfl

lemma lc_nl : lc "\n" = ['\n'] := rfl

lemma lc_two_sp : lc "  " = [' ', ' '] := rfl

lemma matchFieldAt_chunk (n v SEP : List Char)
    (hn : wordLower n) (hv : ∀ c ∈ v, c ≠ '{' ∧ c ≠ '}') :
    matchFieldAt (n ++ ' ' :: '=' :: ' ' :: '{' :: (v ++ '}' :: SEP)) =
      some (n, '{' :: (v ++ ['}']), dropComma (SEP.dropWhile isWs)) := by
  unfold matchFieldAt
  rw [takeWhile_all_stop isWordChar n ' ' _ (fun c hc => (hn.2 c hc).1) (by decide)]
  rw [if_neg hn.1]
  rw [dropWhile_all_stop isWordChar n ' ' _ (fun c hc => (hn.2 c hc).1) (by decide)]
  rw [List.dropWhile_cons]
  rw [if_pos (by decide : isWs ' ' = true)]
  rw [dropWhile_eq_self_of_head isWs _ (by intro c hc; simp at hc; subst hc; decide)]
  dsimp only
  rw [if_pos rfl]
  rw [List.dropWhile_cons]
  rw [if_pos (by decide : isWs ' ' = true)]
  rw [dropWhile_eq_self_of_head isWs _ (by intro c hc; simp at hc; subst hc; decide)]
  rw [matchValue_braced v SEP hv]

/-- Advance the loop over the whole chunk region: leftmost matches consume
one chunk and its separator at a time, accumulating setField updates. -/
lemma loopF_chunks : ∀ (pairs : List (List Char × List Char))
    (acc : List (List Char × List Char)) (fuel : Nat),
    (∀ p ∈ pairs, wordLower p.1) →
    (∀ p ∈ pairs, niceValue p.2) →
    (chunksFrom pairs).length < fuel →
    parseFieldsLoopF fuel (chunksFrom pairs) acc =
      pairs.foldl (fun a p => setField a (p.1.map Char.toLower) p.2) acc := by
  intro pairs
  induction pairs with
  | nil =>
    intro acc fuel _ _ _
    simp [chunksFrom, loopF_nil]
  | cons pr rest ih =>
    obtain ⟨n, v⟩ := pr
    intro acc fuel hn hv hf
    have hn0 : wordLower n := hn (n, v) (by simp)
    have hv0 : niceValue v := hv (n, v) (by simp)
    have hne : n ≠ [] := hn0.1
    cases fuel with
    | zero =>
      exfalso
      omega
    | succ f =>
      cases rest with
      | nil =>
        obtain ⟨c, n2, rfl⟩ : ∃ c n2, n = c :: n2 := by
          cases n with
          | nil => exact absurd rfl hne
          | cons c n2 => exact ⟨c, n2, rfl⟩
        have hchunk : chunksFrom [(c :: n2, v)] =
            c :: (n2 ++ ' ' :: '=' :: ' ' :: '{' :: (v ++ '}' :: [])) := by
          simp [chunksFrom]
        rw [hchunk]
        rw [loopF_step f c (n2 ++ ' ' :: '=' :: ' ' :: '{' :: (v ++ '}' :: [])) acc
          (c :: n2) ('{' :: (v ++ ['}'])) (dropComma ([].dropWhile isWs)) ?hm]
        case hm =>
          have := matchFieldAt_chunk (c :: n2) v [] hn0 hv0.1
          simpa using this
        rw [show dropComma ([].dropWhile isWs) = [] from rfl]
        rw [loopF_nil]
        rw [stripValue_braced v hv0]
        simp
      | cons q qs =>
        obtain ⟨c, n2, rfl⟩ : ∃ c n2, n = c :: n2 := by
          cases n with
          | nil => exact absurd rfl hne
          | cons c n2 => exact ⟨c, n2, rfl⟩
        have hchunk : chunksFrom ((c :: n2, v) :: q :: qs) =
            c :: (n2 ++ ' ' :: '=' :: ' ' :: '{' ::
              (v ++ '}' :: (',' :: '\n' :: ' ' :: ' ' :: chunksFrom (q :: qs)))) := by
          simp [chunksFrom]
        rw [hchunk]
        rw [loopF_step f c _ acc (c :: n2) ('{' :: (v ++ ['}']))
          (dropComma ((',' :: '\n' :: ' ' :: ' ' :: chunksFrom (q :: qs)).dropWhile isWs)) ?hm2]
        case hm2 =>
          have := matchFieldAt_chunk (c :: n2) v
            (',' :: '\n' :: ' ' :: ' ' :: chunksFrom (q :: qs)) hn0 hv0.1
          simpa using this
        rw [show (',' :: '\n' :: ' ' :: ' ' :: chunksFrom (q :: qs)).dropWhile isWs =
          ',' :: '\n' :: ' ' :: ' ' :: chunksFrom (q :: qs) from by
            rw [List.dropWhile_cons, if_neg (by decide)]]
        rw [show dropComma (',' :: '\n' :: ' ' :: ' ' :: chunksFrom (q :: qs)) =
          '\n' :: ' ' :: ' ' :: chunksFrom (q :: qs) from by simp [dropComma]]
        rw [show ('\n' :: ' ' :: ' ' :: chunksFrom (q :: qs)) =
          ['\n', ' ', ' '] ++ chunksFrom (q :: qs) from rfl]
        rw [loopF_skip ['\n', ' ', ' '] (by decide) f (chunksFrom (q :: qs)) _ ?hflen]
        case hflen =>
          have hlen : (chunksFrom ((c :: n2, v) :: q :: qs)).length =
              n2.length + 1 + v.length + 9 + (chunksFrom (q :: qs)).length := by
            rw [hchunk]
            simp [List.length_append]
            omega
          rw [hlen] at hf
          simp only [List.length_cons, List.length_nil]
          omega
        rw [stripValue_braced v hv0]
        rw [show (['\n', ' ', ' '] : List Char).length = 3 from rfl]
        rw [ih _ (f - 3) (fun p hp => hn p (by simp [hp])) (fun p hp => hv p (by simp [hp])) ?hflen2]
        case hflen2 =>
          have hlen : (chunksFrom ((c :: n2, v) :: q :: qs)).length =
              n2.length + 1 + v.length + 9 + (chunksFrom (q :: qs)).length := by
            rw [hchunk]
            simp [List.length_append]
            omega
          rw [hlen] at hf
          omega
        simp

lemma word_not_ws (c : Char) (h : isWordChar c = true) : isWs c = false := by
  by_contra hx
  have hws : isWs c = true := by simpa using hx
  unfold isWs at hws
  simp only [Bool.or_eq_true, decide_eq_true_eq] at hws
  rcases hws with ((((rfl | rfl) | rfl) | rfl) | rfl) | rfl <;> exact absurd h (by decide)

lemma head?_append_left {a : List Char} (b : List Char) (ha : a ≠ []) :
    (a ++ b).head? = a.head? := by
  cases a with
  | nil => exact absurd rfl ha
  | cons x xs => rfl

lemma joinSepL_lines : ∀ (rest : List (List Char × List Char)) (n v : List Char),
    joinSepL (lc ",\n") (((n, v) :: rest).map (fun p => renderLineL p.1 p.2)) =
      ' ' :: ' ' :: chunksFrom ((n, v) :: rest) := by
  intro rest
  induction rest with
  | nil =>
    intro n v
    show renderLineL n v = ' ' :: ' ' :: chunksFrom [(n, v)]
    simp [renderLineL, chunksFrom, lc_space_eq, List.append_assoc]
  | cons q qs ih =>
    intro n v
    obtain ⟨qn, qv⟩ := q
    show renderLineL n v ++ lc ",\n" ++
      joinSepL (lc ",\n") (((qn, qv) :: qs).map (fun p => renderLineL p.1 p.2)) =
      ' ' :: ' ' :: chunksFrom ((n, v) :: (qn, qv) :: qs)
    rw [ih qn qv]
    show renderLineL n v ++ lc ",\n" ++ (' ' :: ' ' :: chunksFrom ((qn, qv) :: qs)) =
      ' ' :: ' ' :: (n ++ ' ' :: '=' :: ' ' :: '{' ::
        (v ++ '}' :: ',' :: '\n' :: ' ' :: ' ' :: chunksFrom ((qn, qv) :: qs)))
    simp [renderLineL, lc_space_eq, lc_comma_nl, List.append_assoc]

lemma parseHead_of_shape (ty key R : List Char) (hty : wordLower ty)
    (hkey1 : key ≠ []) (hkeyc : ∀ c ∈ key, c ≠ ',') :
    parseHead ('@' :: (ty ++ '{' :: (key ++ ',' :: R))) = some (ty, key, R) := by
  unfold parseHead
  dsimp only
  rw [if_pos rfl]
  rw [takeWhile_all_stop isWordChar ty '{' _ (fun c hc => (hty.2 c hc).1) (by decide)]
  rw [if_neg hty.1]
  rw [dropWhile_all_stop isWordChar ty '{' _ (fun c hc => (hty.2 c hc).1) (by decide)]
  rw [dropWhile_eq_self_of_head isWs _
    (by intro c hc; simp only [List.head?_cons, Option.some_inj] at hc; subst hc; decide)]
  dsimp only
  rw [if_pos rfl]
  have hkeyd : ∀ c ∈ key, (fun x => decide (x ≠ ',')) c = true := by
    intro c hc
    simpa using hkeyc c hc
  rw [takeWhile_all_stop _ key ',' R hkeyd (by decide)]
  rw [dropWhile_all_stop _ key ',' R hkeyd (by decide)]
  dsimp only
  rw [if_neg hkey1]

lemma stripTrailBrace_shape (M : List Char) :
    stripTrailBrace ('\n' :: (M ++ ['\n', '}', '\n'])) = '\n' :: (M ++ ['\n']) := by
  unfold stripTrailBrace
  have hrev : ('\n' :: (M ++ ['\n', '}', '\n'])).reverse
      = '\n' :: '}' :: '\n' :: (M.reverse ++ ['\n']) := by
    simp
  rw [hrev]
  rw [List.dropWhile_cons, if_pos (by decide : isWs '\n' = true)]
  rw [List.dropWhile_cons, if_neg (by decide : ¬ isWs '}' = true)]
  dsimp only
  rw [if_pos rfl]
  simp

lemma chunksFrom_getLast : ∀ (rest : List (List Char × List Char)) (n v : List Char),
    (chunksFrom ((n, v) :: rest)).getLast? = some '}' := by
  intro rest
  induction rest with
  | nil =>
    intro n v
    have h1 : chunksFrom [(n, v)] = (n ++ ' ' :: '=' :: ' ' :: '{' :: v) ++ ['}'] := by
      show n ++ ' ' :: '=' :: ' ' :: '{' :: (v ++ ['}']) = _
      simp [List.append_assoc]
    rw [h1, List.getLast?_concat]
  | cons q qs ih =>
    intro n v
    obtain ⟨qn, qv⟩ := q
    have h1 : chunksFrom ((n, v) :: (qn, qv) :: qs) =
        (n ++ ' ' :: '=' :: ' ' :: '{' :: v) ++ '}' :: ',' :: '\n' :: ' ' :: ' ' ::
          chunksFrom ((qn, qv) :: qs) := by
      show n ++ ' ' :: '=' :: ' ' :: '{' ::
        (v ++ '}' :: ',' :: '\n' :: ' ' :: ' ' :: chunksFrom ((qn, qv) :: qs)) = _
      simp [List.append_assoc]
    rw [h1, List.getLast?_append_cons]
    have h3 : ('}' :: ',' :: '\n' :: ' ' :: ' ' :: chunksFrom ((qn, qv) :: qs)) =
        (['}', ',', '\n', ' ', ' '] : List Char) ++ chunksFrom ((qn, qv) :: qs) := rfl
    rw [h3, List.getLast?_append_of_ne_nil _ ?hne]
    case hne =>
      intro hcon
      have hgl := congrArg List.getLast? hcon
      rw [ih qn qv] at hgl
      simp at hgl
    exact ih qn qv

lemma jsTrim_body (Ch : List Char) (hh : ∀ d, Ch.head? = some d → isWs d = false)
    (hl : Ch.getLast? = some '}') :
    jsTrim ('\n' :: (' ' :: ' ' :: (Ch ++ ['\n']))) = Ch := by
  obtain ⟨e, Ch2, rfl⟩ : ∃ e Ch2, Ch = e :: Ch2 := by
    cases Ch with
    | nil => simp at hl
    | cons e t => exact ⟨e, t, rfl⟩
  unfold jsTrim
  rw [List.dropWhile_cons, if_pos (by decide : isWs '\n' = true)]
  rw [List.dropWhile_cons, if_pos (by decide : isWs ' ' = true)]
  rw [List.dropWhile_cons, if_pos (by decide : isWs ' ' = true)]
  rw [show ((e :: Ch2) ++ ['\n']) = e :: (Ch2 ++ ['\n']) from rfl]
  rw [List.dropWhile_cons, if_neg (by simp [hh e rfl])]
  unfold dropTrailWs
  rw [show (e :: (Ch2 ++ ['\n'])) = (e :: Ch2) ++ ['\n'] from rfl]
  rw [List.reverse_append]
  rw [show ((['\n'] : List Char).reverse ++ (e :: Ch2).reverse) =
    '\n' :: (e :: Ch2).reverse from rfl]
  rw [List.dropWhile_cons, if_pos (by decide : isWs '\n' = true)]
  rw [dropWhile_eq_self_of_head isWs _ ?hh2, List.reverse_reverse]
  case hh2 =>
    intro d hd
    rw [List.head?_reverse, hl] at hd
    simp only [Option.some_inj] at hd
    subst hd
    decide

lemma parseEntry_serializeCore (ty key : List Char) (pairs : List (List Char × List Char))
    (hty : wordLower ty) (hkey : niceKey key)
    (hnames : ∀ p ∈ pairs, wordLower p.1)
    (hvals : ∀ p ∈ pairs, niceValue p.2) :
    parseEntry (String.mk (serializeCore ty key pairs)) =
      some ⟨ty, key,
        pairs.foldl (fun a p => setField a (p.1.map Char.toLower) p.2) []⟩ := by
  have hser : serializeCore ty key pairs =
      '@' :: (ty ++ '{' :: (key ++ ',' :: ('\n' ::
        (joinSepL (lc ",\n") (pairs.map (fun p => renderLineL p.1 p.2)) ++
          ['\n', '}', '\n'])))) := by
    unfold serializeCore
    rw [lc_comma_nl, lc_nl]
    simp [List.append_assoc]
  unfold parseEntry
  rw [show (String.mk (serializeCore ty key pairs)).data = serializeCore ty key pairs from rfl]
  rw [hser]
  rw [parseHead_of_shape ty key _ hty hkey.1 hkey.2.2]
  dsimp only
  rw [stripTrailBrace_shape]
  rw [map_toLower_self (fun c hc => (hty.2 c hc).2)]
  rw [hkey.2.1]
  cases pairs with
  | nil =>
    rw [show joinSepL (lc ",\n")
      (([] : List (List Char × List Char)).map (fun p => renderLineL p.1 p.2)) = [] from rfl]
    rw [show jsTrim ('\n' :: (([] : List Char) ++ ['\n'])) = [] from by decide]
    rw [loopF_nil]
    rfl
  | cons pr rest =>
    obtain ⟨n, v⟩ := pr
    have hn0 : wordLower n := hnames (n, v) (by simp)
    rw [joinSepL_lines rest n v]
    rw [show ((' ' :: ' ' :: chunksFrom ((n, v) :: rest)) ++ ['\n']) =
      ' ' :: ' ' :: (chunksFrom ((n, v) :: rest) ++ ['\n']) from rfl]
    rw [jsTrim_body (chunksFrom ((n, v) :: rest)) ?hhd (chunksFrom_getLast rest n v)]
    case hhd =>
      intro d hd
      obtain ⟨c, n2, rfl⟩ : ∃ c n2, n = c :: n2 := by
        cases n with
        | nil => exact absurd rfl hn0.1
        | cons c n2 => exact ⟨c, n2, rfl⟩
      have hform : (chunksFrom ((c :: n2, v) :: rest)).head? = some c := by
        cases rest with
        | nil => rfl
        | cons q qs =>
          obtain ⟨qn, qv⟩ := q
          rfl
      rw [hform] at hd
      have hdc : d = c := by simpa using hd.symm
      rw [hdc]
      exact word_not_ws c (hn0.2 c (by simp)).1
    rw [loopF_chunks ((n, v) :: rest) [] ((chunksFrom ((n, v) :: rest)).length + 1)
      hnames hvals (by omega)]

lemma foldl_setField_lower : ∀ (pairs acc : List (List Char × List Char)),
    (∀ p ∈ pairs, p.1.map Char.toLower = p.1) →
    (pairs.map Prod.fst).Nodup →
    (∀ n ∈ pairs.map Prod.fst, n ∉ acc.map Prod.fst) →
    pairs.foldl (fun a p => setField a (p.1.map Char.toLower) p.2) acc = acc ++ pairs := by
  intro pairs
  induction pairs with
  | nil => intro acc _ _ _; simp
  | cons p rest ih =>
    intro acc hlow hnodup hdisj
    simp only [List.foldl_cons]
    rw [hlow p (by simp)]
    have h0 : (p.1 :: rest.map Prod.fst).Nodup := by simpa using hnodup
    have h1 : p.1 ∉ rest.map Prod.fst := (List.nodup_cons.mp h0).1
    have h2 : (rest.map Prod.fst).Nodup := (List.nodup_cons.mp h0).2
    rw [setField_append acc p.1 p.2 (hdisj p.1 (by simp))]
    rw [ih (acc ++ [(p.1, p.2)]) (fun q hq => hlow q (by simp [hq])) h2
        (by
          intro n hn
          simp only [List.map_append, List.mem_append, List.map_cons, List.map_nil]
          push_neg
          constructor
          · exact hdisj n (by simp [hn])
          · simp only [List.mem_singleton]
            intro hcon
            rw [hcon] at hn
            exact h1 hn)]
    simp

/-! Claim theorems. -/

/-- C1 counterexample: the entry parsed from the fragment
"@a\x7bk,author=\x7bAb Cd,\x7d\x7d" (a comma-form author with a two-word
family and an empty given part) breaks idempotence: the first formatting
yields author "Ab Cd", whose re-parse is then normalized through the
space-form branch into "A Cd", so formatting after a re-parse differs from
the first formatting. -/
theorem format_reparse_not_idempotent :
    ((parseEntry "@a\x7bk,author=\x7bAb Cd,\x7d\x7d").bind
        (fun e => (parseEntry (formatEntry opts0 e)).map (formatEntry opts0))) ≠
      (parseEntry "@a\x7bk,author=\x7bAb Cd,\x7d\x7d").map (formatEntry opts0) := by
  decide

/-- C1 (amended): formatting is idempotent through a re-parse, under any
fixed option setting, for every entry in canonical form: entry type a
nonempty lower-case word, key nonempty, trimmed and comma-free, and whose
normalized field mapping has nonempty lower-case word names without
duplicates, values free of braces, trimmed and not quote-wrapped, is
already in emission order (preferred fields with nonempty values first,
then the remaining fields sorted), and is a fixed point of the
normalization passes. -/
theorem format_reparse_idempotent (o : Opts) (e : Entry)
    (hty : wordLower e.type) (hkey : niceKey e.key)
    (hnames : ∀ p ∈ normalizeFieldsL o e.fields, wordLower p.1)
    (hvals : ∀ p ∈ normalizeFieldsL o e.fields, niceValue p.2)
    (hnodup : ((normalizeFieldsL o e.fields).map Prod.fst).Nodup)
    (hform : emissionPairsL (normalizeFieldsL o e.fields) = normalizeFieldsL o e.fields)
    (hstab : normalizeFieldsL o (normalizeFieldsL o e.fields) = normalizeFieldsL o e.fields) :
    (parseEntry (formatEntry o e)).map (formatEntry o) = some (formatEntry o e) := by
  have hfe : formatEntry o e =
      String.mk (serializeCore e.type e.key (normalizeFieldsL o e.fields)) := by
    unfold formatEntry formatEntryL
    rw [hform]
  rw [hfe]
  rw [parseEntry_serializeCore e.type e.key (normalizeFieldsL o e.fields) hty hkey hnames hvals]
  rw [foldl_setField_lower (normalizeFieldsL o e.fields) []
    (fun p hp => map_toLower_self (fun c hc => ((hnames p hp).2 c hc).2))
    hnodup (by simp)]
  simp only [List.nil_append, Option.map_some']
  congr 1
  show String.mk (formatEntryL o ⟨e.type, e.key, normalizeFieldsL o e.fields⟩) = _
  unfold formatEntryL
  show String.mk (serializeCore e.type e.key
    (emissionPairsL (normalizeFieldsL o (normalizeFieldsL o e.fields)))) = _
  rw [hstab, hform]

/-- C1 witness: the amended idempotence theorem applied at a concrete
canonical entry under all options off. -/
theorem format_reparse_idempotent_witness :
    (parseEntry (formatEntry opts0 ⟨lc "article", lc "key1",
        [(lc "author", lc "A Einstein"), (lc "year", lc "1916")]⟩)).map (formatEntry opts0) =
      some (formatEntry opts0 ⟨lc "article", lc "key1",
        [(lc "author", lc "A Einstein"), (lc "year", lc "1916")]⟩) :=
  format_reparse_idempotent opts0
    ⟨lc "article", lc "key1", [(lc "author", lc "A Einstein"), (lc "year", lc "1916")]⟩
    (by decide) (by decide) (by decide) (by decide) (by decide) (by decide) (by decide)

/-- C3: normalizing the author name "Einstein, Albert" (comma form) and
"Albert Einstein" (space form) both yield exactly "A Einstein", under either
setting of the periods option. -/
theorem normalizeAuthors_einstein_roundtrip (b : Bool) :
    normalizeAuthorsStrict b "Einstein, Albert" = "A Einstein" ∧
    normalizeAuthorsStrict b "Albert Einstein" = "A Einstein" := by
  cases b
  · exact ⟨by decide, by decide⟩
  · exact ⟨by decide, by decide⟩

/-- C4 counterexample: the name "\x7bA  B\x7d" is fully wrapped in a
top-level brace pair, yet the normalizer does not return it verbatim: the
internal double space is collapsed before the corporate check, giving
"\x7bA B\x7d". -/
theorem corporate_author_not_verbatim :
    normalizeOneAuthorStrict false "\x7bA  B\x7d" ≠ "\x7bA  B\x7d" := by decide

/-- C4 (amended): an author name wrapped in a top-level brace pair whose
whitespace is already normalized (trimmed, single internal spaces) is
returned verbatim by the per-name normalizer, untouched by initialing; in
particular the author field "\x7b\x7bATLAS Collaboration\x7d\x7d" passes
through the full author normalizer unchanged under either option setting. -/
theorem corporate_author_passthrough (b : Bool) (n : List Char)
    (h1 : jsTrim n = n) (h2 : collapseWs n = n)
    (h3 : n.head? = some '{') (h4 : n.getLast? = some '}') :
    normalizeOneAuthorL b n = n ∧
    (∀ b2 : Bool, normalizeAuthorsStrict b2 "\x7b\x7bATLAS Collaboration\x7d\x7d" =
      "\x7b\x7bATLAS Collaboration\x7d\x7d") := by
  constructor
  · have hne : n ≠ [] := by
      intro h
      rw [h] at h3
      exact Option.noConfusion h3
    simp only [normalizeOneAuthorL, h1, h2]
    rw [if_neg hne, if_pos ⟨h3, h4⟩]
  · intro b2
    cases b2
    · decide
    · decide

/-- C4 witness: the amended theorem applied at a concrete
whitespace-normalized corporate name. -/
theorem corporate_author_passthrough_witness :
    normalizeOneAuthorL false (lc "\x7bX Y\x7d") = lc "\x7bX Y\x7d" :=
  (corporate_author_passthrough false (lc "\x7bX Y\x7d")
    (by decide) (by decide) (by decide) (by decide)).1

/-- C5: the title materials formatter maps "Bi2Te3 nanosheets" to
"\x7bBi$_2$Te$_3$\x7d nanosheets"; re-applying it to the result is a no-op;
and any title already containing the subscript marker or the math-mode
marker anywhere is returned unmodified. -/
theorem latexify_materials_title :
    latexifyMaterialsInTitle "Bi2Te3 nanosheets" = "\x7bBi$_2$Te$_3$\x7d nanosheets" ∧
    latexifyMaterialsInTitle (latexifyMaterialsInTitle "Bi2Te3 nanosheets") =
      latexifyMaterialsInTitle "Bi2Te3 nanosheets" ∧
    ∀ t : List Char, (hasSub (lc "$_") t || hasSub (lc "\\mathrm") t) = true →
      latexifyL t = t := by
  refine ⟨by decide, by decide, ?_⟩
  intro t h
  by_cases ht : t = []
  · simp [latexifyL, ht]
  · simp [latexifyL, ht, h]

/-- C5 witness: the guard clause of the theorem applied at a concrete
already-marked title. -/
theorem latexify_materials_title_witness :
    latexifyL (lc "already $_ marked") = lc "already $_ marked" :=
  latexify_materials_title.2.2 (lc "already $_ marked") (by decide)

/-- C7: when URL enforcement is enabled and the entry has a truthy doi
field, the url field is overwritten with the resolver base address prefixed
to the (trimmed) DOI, regardless of the url field prior value, and the doi
field is trimmed in place; in particular DOI "10.1/x" with a prior URL
"OLD" yields url "https://doi.org/10.1/x". -/
theorem url_enforcement (o : Opts) (fs : List (List Char × List Char))
    (h1 : o.enforceDoiUrl = true) (h2 : truthyAt fs (lc "doi") = true) :
    (getFd (enforceStep o fs) (lc "url") = doiUrlL (jsTrim (getFd fs (lc "doi"))) ∧
     getFd (enforceStep o fs) (lc "doi") = jsTrim (getFd fs (lc "doi"))) ∧
    enforceStep ⟨false, false, true⟩ [(lc "doi", lc "10.1/x"), (lc "url", lc "OLD")] =
      [(lc "doi", lc "10.1/x"), (lc "url", lc "https://doi.org/10.1/x")] := by
  refine ⟨?_, by decide⟩
  unfold enforceStep
  rw [h1, h2]
  simp only [Bool.and_self, if_true]
  constructor
  · unfold getFd
    rw [getField_setField_self]
    rfl
  · unfold getFd
    rw [getField_setField_ne _ _ _ _ (by decide), getField_setField_self]
    rfl

lemma parseHead_pre (cs w pre rest : List Char)
    (h : parseHead cs = some (w, pre, rest)) :
    ∃ cs4 : List Char, pre = cs4.takeWhile (· ≠ ',') := by
  unfold parseHead at h
  split at h
  next =>
    split at h
    · split at h
      · exact absurd h (by simp)
      · split at h
        next =>
          split at h
          · split at h
            next =>
              split at h
              · exact absurd h (by simp)
              · simp only [Option.some_inj, Prod.mk.injEq] at h
                exact ⟨_, h.2.1.symm⟩
            next => exact absurd h (by simp)
          · exact absurd h (by simp)
        next => exact absurd h (by simp)
    · exact absurd h (by simp)
  next => exact absurd h (by simp)

lemma parseEntry_key (s : String) (e : Entry) (h : parseEntry s = some e) :
    ∃ w pre rest, parseHead s.data = some (w, pre, rest) ∧ e.key = jsTrim pre := by
  unfold parseEntry at h
  cases hph : parseHead s.data with
  | none => rw [hph] at h; exact absurd h (by simp)
  | some x =>
    obtain ⟨w, pre, rest⟩ := x
    rw [hph] at h
    simp only [Option.some_inj] at h
    exact ⟨w, pre, rest, rfl, by rw [← h]⟩

/-- C8 counterexample: the fragment with a whitespace-only key text is
accepted by parseEntry, and the returned citation key is the empty string. -/
theorem parse_whitespace_key_empty :
    parseEntry "@a\x7b ,\x7d" = some ⟨lc "a", [], []⟩ := by decide

/-- C8 (amended): for every fragment parseEntry accepts, the returned
citation key is a trimmed, comma-free string; it can be empty exactly when
the key text between the opening brace and the first comma is whitespace
only. -/
theorem parse_key_trimmed_comma_free (s : String) (e : Entry)
    (h : parseEntry s = some e) :
    jsTrim e.key = e.key ∧ ∀ c ∈ e.key, c ≠ ',' := by
  obtain ⟨w, pre, rest, hph, hkey⟩ := parseEntry_key s e h
  constructor
  · rw [hkey]; exact jsTrim_idem pre
  · intro c hc
    rw [hkey] at hc
    have hmem := jsTrim_sub pre hc
    obtain ⟨cs4, hpre⟩ := parseHead_pre s.data w pre rest hph
    rw [hpre] at hmem
    have := List.mem_takeWhile_imp hmem
    simpa using this

/-- C8 witness: the amended key theorem applied at a concretely parsed
fragment. -/
theorem parse_key_trimmed_comma_free_witness :
    jsTrim (lc "k") = lc "k" ∧ ∀ c ∈ lc "k", c ≠ ',' :=
  parse_key_trimmed_comma_free "@a\x7bk,\x7d" ⟨lc "a", lc "k", []⟩ (by decide)

/-- C10 counterexample: a non-preferred field mapped to the empty string is
present in the field mapping and nevertheless produces the line
"  note = \x7b\x7d" in the serialized output, so the emission test is not
value truthiness for every field. -/
theorem empty_extra_field_line :
    getField [(lc "note", [])] (lc "note") = some [] ∧
    formatEntry opts0 ⟨lc "article", lc "k", [(lc "note", [])]⟩ =
      "@article\x7bk,\n  note = \x7b\x7d\n\x7d\n" :=
  ⟨by decide, by decide⟩

/-- C10 (amended): a preferred field whose value is the empty string
produces no emitted pair (and hence no line), because the preferred loop
tests value truthiness; every metadata-adapter field name is preferred, so
adapter fields left empty are silently absent, and the adapter record with
every attribute missing formats to an entry with no field lines at all.
Non-preferred fields are emitted unconditionally (see the counterexample). -/
theorem empty_preferred_not_emitted (fs : List (List Char × List Char)) (f : List Char)
    (h1 : f ∈ preferred) (h2 : getField fs f = some []) :
    (∀ p ∈ emissionPairsL fs, p.1 ≠ f) ∧
    (∀ msg : CrossrefMsg, ∀ g ∈ (crossrefToBibEntry msg).fields.map Prod.fst,
      g ∈ preferred) ∧
    formatEntry opts0 (crossrefToBibEntry ⟨none, [], [], none, none, none, none, none, []⟩) =
      "@article\x7brefpaper,\n\n\x7d\n" := by
  refine ⟨?_, ?_, by decide⟩
  · intro p hp
    unfold emissionPairsL at hp
    rcases List.mem_append.mp hp with hl | hr
    · obtain ⟨g, hg, rfl⟩ := List.mem_map.mp hl
      have htr := (List.mem_filter.mp hg).2
      intro hcon
      simp only at hcon
      rw [hcon] at htr
      unfold truthyAt at htr
      rw [h2] at htr
      simp at htr
    · obtain ⟨g, hg, rfl⟩ := List.mem_map.mp hr
      unfold extraKeys at hg
      have hg2 := (sortKeys_perm _).mem_iff.mp hg
      have hnp := (List.mem_filter.mp hg2).2
      intro hcon
      simp only at hcon
      rw [hcon] at hnp
      simp at hnp
      exact hnp h1
  · intro msg g hg
    simp [crossrefToBibEntry] at hg
    rcases hg with rfl | rfl | rfl | rfl | rfl | rfl | rfl | rfl | rfl
    · decide
    · decide
    · decide
    · decide
    · decide
    · decide
    · decide
    · decide
    · decide

/-- C10 witness: the amended theorem applied at a mapping holding an empty
author (preferred) next to a nonempty year, then at the single emitted
pair. -/
theorem empty_preferred_not_emitted_witness :
    (lc "year", lc "2020").1 ≠ lc "author" :=
  (empty_preferred_not_emitted [(lc "author", []), (lc "year", lc "2020")] (lc "author")
    (by decide) (by decide)).1 (lc "year", lc "2020") (by decide)

lemma doiMatchAt_spec (cs m rest : List Char) (h : doiMatchAt cs = some (m, rest)) :
    cs = m ++ rest ∧
    ∃ ds sfx : List Char,
      m = '1' :: '0' :: '.' :: (ds ++ '/' :: sfx) ∧
      4 ≤ ds.length ∧ ds.length ≤ 9 ∧ (∀ c ∈ ds, Char.isDigit c = true) ∧
      sfx ≠ [] ∧ (∀ c ∈ sfx, isDoiSuffixChar c = true) := by
  match cs, h with
  | [], h => simp [doiMatchAt] at h
  | [c1], h => simp [doiMatchAt] at h
  | [c1, c2], h => simp [doiMatchAt] at h
  | c1 :: c2 :: c3 :: rest0, h =>
    rw [show doiMatchAt (c1 :: c2 :: c3 :: rest0) =
        (if c1 = '1' ∧ c2 = '0' ∧ c3 = '.' then
          if 4 ≤ (rest0.takeWhile Char.isDigit).length ∧
              (rest0.takeWhile Char.isDigit).length ≤ 9 then
            match rest0.dropWhile Char.isDigit with
            | c4 :: rest2 =>
              if c4 = '/' then
                if rest2.takeWhile isDoiSuffixChar = [] then none
                else some ('1' :: '0' :: '.' :: rest0.takeWhile Char.isDigit ++
                  '/' :: rest2.takeWhile isDoiSuffixChar, rest2.dropWhile isDoiSuffixChar)
              else none
            | [] => none
          else none
        else none) from rfl] at h
    by_cases h1 : c1 = '1' ∧ c2 = '0' ∧ c3 = '.'
    · rw [if_pos h1] at h
      obtain ⟨rfl, rfl, rfl⟩ := h1
      by_cases h2 : 4 ≤ (rest0.takeWhile Char.isDigit).length ∧
          (rest0.takeWhile Char.isDigit).length ≤ 9
      · rw [if_pos h2] at h
        cases hdw : rest0.dropWhile Char.isDigit with
        | nil => rw [hdw] at h; simp at h
        | cons c4 rest2 =>
          rw [hdw] at h
          dsimp only at h
          by_cases h4 : c4 = '/'
          · rw [if_pos h4] at h
            subst h4
            by_cases h5 : rest2.takeWhile isDoiSuffixChar = []
            · rw [if_pos h5] at h; simp at h
            · rw [if_neg h5] at h
              simp only [Option.some_inj, Prod.mk.injEq] at h
              obtain ⟨hm, hrest⟩ := h
              constructor
              · rw [← hm, ← hrest]
                have h0 : rest0.takeWhile Char.isDigit ++ rest0.dropWhile Char.isDigit
                    = rest0 := List.takeWhile_append_dropWhile _ _
                rw [hdw] at h0
                have hsfxsplit : rest2.takeWhile isDoiSuffixChar ++
                    rest2.dropWhile isDoiSuffixChar = rest2 :=
                  List.takeWhile_append_dropWhile _ _
                have hsplit : rest0 = rest0.takeWhile Char.isDigit ++ '/' ::
                    (rest2.takeWhile isDoiSuffixChar ++ rest2.dropWhile isDoiSuffixChar) := by
                  rw [hsfxsplit]
                  exact h0.symm
                conv_lhs => rw [hsplit]
                simp [List.append_assoc]
              · refine ⟨rest0.takeWhile Char.isDigit, rest2.takeWhile isDoiSuffixChar,
                  hm.symm, h2.1, h2.2, ?_, h5, ?_⟩
                · intro c hc2
                  exact List.mem_takeWhile_imp hc2
                · intro c hc2
                  exact List.mem_takeWhile_imp hc2
          · rw [if_neg h4] at h; simp at h
      · rw [if_neg h2] at h; simp at h
    · rw [if_neg h1] at h; simp at h

lemma doiScan_spec : ∀ (cs m : List Char), doiScan cs = some m →
    ∃ pre post : List Char, cs = pre ++ m ++ post ∧
      (∀ i, i < pre.length → doiMatchAt (cs.drop i) = none) ∧
      ∃ ds sfx : List Char,
        m = '1' :: '0' :: '.' :: (ds ++ '/' :: sfx) ∧
        4 ≤ ds.length ∧ ds.length ≤ 9 ∧ (∀ c ∈ ds, Char.isDigit c = true) ∧
        sfx ≠ [] ∧ (∀ c ∈ sfx, isDoiSuffixChar c = true) := by
  intro cs
  induction cs with
  | nil => intro m h; simp [doiScan] at h
  | cons c t ih =>
    intro m h
    unfold doiScan at h
    cases hma : doiMatchAt (c :: t) with
    | some pr =>
      obtain ⟨m0, rest0⟩ := pr
      rw [hma] at h
      simp only [Option.some_inj] at h
      subst h
      obtain ⟨heq, hshape⟩ := doiMatchAt_spec (c :: t) m0 rest0 hma
      exact ⟨[], rest0, by simpa using heq, by intro i hi; simp at hi, hshape⟩
    | none =>
      rw [hma] at h
      obtain ⟨pre, post, heq, hnone, hshape⟩ := ih m h
      refine ⟨c :: pre, post, by simp [heq], ?_, hshape⟩
      intro i hi
      cases i with
      | zero => simpa using hma
      | succ j =>
        simp only [List.drop_succ_cons]
        exact hnone j (by simpa using hi)

/-- C6: DOI extraction.  First, the documented instance: the resolver URL
for 10.1038/s41586-020-1234-5 extracts exactly that DOI.  Second, when the
option is on, the doi field falsy and the url field truthy, the extraction
step leaves the mapping unchanged when the extractor finds nothing, and
otherwise sets the doi field to the extracted value.  Third, any nonempty
extracted value is a substring of the trimmed text at the first position
where the anchored DOI regex matches, and has the DOI shape
10.<4-9 digits>/<nonempty suffix characters>. -/
theorem doi_extraction_from_url :
    (extractDoiFromText "https://doi.org/10.1038/s41586-020-1234-5" =
      "10.1038/s41586-020-1234-5") ∧
    (∀ (o : Opts) (fs : List (List Char × List Char)),
      o.tryExtractDoi = true → truthyAt fs (lc "doi") = false →
      truthyAt fs (lc "url") = true →
      (extractDoiL (getFd fs (lc "url")) = [] → extractStep o fs = fs) ∧
      (extractDoiL (getFd fs (lc "url")) ≠ [] →
        extractStep o fs = setField fs (lc "doi") (extractDoiL (getFd fs (lc "url"))))) ∧
    (∀ (text d : List Char), extractDoiL text = d → d ≠ [] →
      ∃ pre post ds sfx : List Char,
        jsTrim text = pre ++ d ++ post ∧
        (∀ i, i < pre.length → doiMatchAt ((jsTrim text).drop i) = none) ∧
        d = '1' :: '0' :: '.' :: (ds ++ '/' :: sfx) ∧
        4 ≤ ds.length ∧ ds.length ≤ 9 ∧ (∀ c ∈ ds, Char.isDigit c = true) ∧
        sfx ≠ [] ∧ (∀ c ∈ sfx, isDoiSuffixChar c = true)) := by
  refine ⟨by decide, ?_, ?_⟩
  · intro o fs h1 h2 h3
    unfold extractStep
    rw [h1, h2, h3]
    simp only [Bool.not_false, Bool.and_self, Bool.true_and, Bool.and_true, if_true]
    constructor
    · intro hd
      rw [if_pos hd]
    · intro hd
      rw [if_neg hd]
  · intro text d hd hne
    unfold extractDoiL at hd
    by_cases ht : text = []
    · rw [if_pos ht] at hd
      exact absurd hd.symm hne
    · rw [if_neg ht] at hd
      cases hscan : doiScan (jsTrim text) with
      | none => rw [hscan] at hd; exact absurd hd.symm hne
      | some m =>
        rw [hscan] at hd
        simp only at hd
        subst hd
        obtain ⟨pre, post, heq, hnone, ds, sfx, hshape⟩ :=
          doiScan_spec (jsTrim text) m hscan
        exact ⟨pre, post, ds, sfx, heq, hnone, hshape.1, hshape.2.1, hshape.2.2.1,
          hshape.2.2.2.1, hshape.2.2.2.2.1, hshape.2.2.2.2.2⟩

/-- C6 witness: the extraction-step clause of the theorem applied at a
concrete entry carrying only the resolver URL. -/
theorem doi_extraction_from_url_witness :
    extractStep ⟨false, true, false⟩
        [(lc "url", lc "https://doi.org/10.1038/s41586-020-1234-5")] =
      setField [(lc "url", lc "https://doi.org/10.1038/s41586-020-1234-5")] (lc "doi")
        (extractDoiL (getFd [(lc "url", lc "https://doi.org/10.1038/s41586-020-1234-5")]
          (lc "url"))) :=
  (doi_extraction_from_url.2.1 ⟨false, true, false⟩
    [(lc "url", lc "https://doi.org/10.1038/s41586-020-1234-5")]
    (by decide) (by decide) (by decide)).2 (by decide)

/-- C2 counterexample: an entry whose author field is present but maps to
the empty string serializes with no author line at all, so serialization
does not emit one line per field present. -/
theorem empty_preferred_field_no_line :
    getField [(lc "author", [])] (lc "author") = some [] ∧
    formatEntry opts0 ⟨lc "article", lc "k", [(lc "author", [])]⟩ =
      "@article\x7bk,\n\n\x7d\n" :=
  ⟨by decide, by decide⟩

/-- C2 (amended): serialization emits the header line, then one line
"  field = \x7bvalue\x7d" for each preferred field present with a nonempty
value, in the fixed preferred order, then one line for every remaining
field (regardless of value) sorted lexicographically by field name, then
the closing brace line. -/
theorem serialization_field_order (o : Opts) (e : Entry) :
    ∃ xl : List (List Char),
      xl.Perm (((normalizeFieldsL o e.fields).map Prod.fst).filter
          (fun f => !(preferred.contains f))) ∧
      xl.Pairwise (fun a b => lcLe a b = true) ∧
      formatEntry o e = String.mk
        ('@' :: e.type ++ '{' :: e.key ++ lc ",\n" ++
          joinSepL (lc ",\n")
            (((preferred.filter (fun f => truthyAt (normalizeFieldsL o e.fields) f)) ++ xl).map
              (fun f => lc "  " ++ f ++ lc " = " ++
                '{' :: getFd (normalizeFieldsL o e.fields) f ++ ['}'])) ++
          lc "\n" ++ '}' :: lc "\n") := by
  refine ⟨extraKeys (normalizeFieldsL o e.fields), sortKeys_perm _, sortKeys_pairwise _, ?_⟩
  unfold formatEntry formatEntryL serializeCore emissionPairsL
  rw [← List.map_append, List.map_map]
  rfl

set_option maxRecDepth 10000 in
/-- C9: the batch loop is failure-isolated and order-preserving: for every
lookup function and identifier sequence, the combined output is exactly the
in-order concatenation of one formatted entry per successful identifier and
one failure comment line per failed identifier, and the reported counts are
the numbers of successes and failures; in particular one success followed
by one failure yields the entry text then the comment line with ok=1,
failed=1. -/
theorem batch_conversion_per_identifier (o : Opts)
    (lk : String → Except String CrossrefMsg) (dois : List String) :
    processDois o lk dois =
      (concatAll (dois.map (doiStepOut o lk)),
       dois.countP (fun d => isOkResult (lk d)),
       dois.countP (fun d => !isOkResult (lk d))) ∧
    processDois opts0
      (fun d => if d = "10.1/x"
        then Except.ok ⟨some 1916, ["Relativity"], [], none, none, none,
          some "10.1/x", none, [⟨some "Albert", some "Einstein"⟩]⟩
        else Except.error "Crossref error 404")
      ["10.1/x", "10.2/y"] =
      ("@article\x7bEinstein1916Relativity,\n  author = \x7bA Einstein\x7d,\n  title = \x7bRelativity\x7d,\n  year = \x7b1916\x7d,\n  doi = \x7b10.1/x\x7d,\n  url = \x7bhttps://doi.org/10.1/x\x7d\n\x7d\n\n% Failed DOI: 10.2/y (Crossref error 404)\n",
       1, 1) := by
  constructor
  · have hfold : ∀ (ds : List String) (c : String) (a b : Nat),
        ds.foldl (processStep o lk) (c, a, b) =
          (c ++ concatAll (ds.map (doiStepOut o lk)),
           a + ds.countP (fun d => isOkResult (lk d)),
           b + ds.countP (fun d => !isOkResult (lk d))) := by
      intro ds
      induction ds with
      | nil =>
        intro c a b
        simp [concatAll, String.append_empty]
      | cons d rest ih =>
        intro c a b
        cases hld : lk d with
        | ok msg =>
          have hstep : processStep o lk (c, a, b) d =
              (c ++ formatEntry o (crossrefToBibEntry msg) ++ "\n", a + 1, b) := by
            unfold processStep; rw [hld]
          have hout : doiStepOut o lk d =
              formatEntry o (crossrefToBibEntry msg) ++ "\n" := by
            unfold doiStepOut; rw [hld]
          have hok : isOkResult (lk d) = true := by unfold isOkResult; rw [hld]
          simp only [List.foldl_cons, List.map_cons, concatAll, List.countP_cons,
            hstep, hout]
          rw [ih]
          simp only [Prod.mk.injEq, hok, Bool.not_true, if_true, if_false]
          refine ⟨?_, ?_, ?_⟩
          · simp [String.append_assoc]
          · omega
          · simp only [Bool.false_eq_true, if_false]
            omega
        | error msg =>
          have hstep : processStep o lk (c, a, b) d =
              (c ++ "% Failed DOI: " ++ d ++ " (" ++ msg ++ ")\n", a, b + 1) := by
            unfold processStep; rw [hld]
          have hout : doiStepOut o lk d =
              "% Failed DOI: " ++ d ++ " (" ++ msg ++ ")\n" := by
            unfold doiStepOut; rw [hld]
          have hok : isOkResult (lk d) = false := by unfold isOkResult; rw [hld]
          simp only [List.foldl_cons, List.map_cons, concatAll, List.countP_cons,
            hstep, hout]
          rw [ih]
          simp only [Prod.mk.injEq, hok, Bool.not_false, if_true, if_false]
          refine ⟨?_, ?_, ?_⟩
          · simp [String.append_assoc]
          · simp only [Bool.false_eq_true, if_false]
            omega
          · omega
    unfold processDois
    rw [hfold]
    simp
  · decide

/-- C7 witness: the enforcement theorem applied at a concrete entry whose
URL field holds an unrelated prior value. -/
theorem url_enforcement_witness :
    getFd (enforceStep ⟨false, false, true⟩
        [(lc "doi", lc "10.1/x"), (lc "url", lc "OLD")]) (lc "url") =
      doiUrlL (jsTrim (getFd [(lc "doi", lc "10.1/x"), (lc "url", lc "OLD")] (lc "doi"))) :=
  ((url_enforcement ⟨false, false, true⟩
    [(lc "doi", lc "10.1/x"), (lc "url", lc "OLD")] (by decide) (by decide)).1).1
